import Mathlib

/-!
Verification development for the golf score analytics program (`app.py`).

The program has two computational parts:

* `load_data` — wide-to-long normalisation of a raw score table
  (pandas `melt`, round-label cleaning via `str.replace('회','').strip()`
  and `to_numeric`, score cleaning via `to_numeric`, `dropna`,
  `astype(int)` on the round number, `sort_values` on the round number);
* the module-level per-player analytics block — filtering to one player,
  sequence indices 1..N, mean/min/max, biased covariances feeding
  `scipy.stats.linregress` (slope, intercept, r), the best-N handicap
  average and the over-par handicap.

Numbers are embedded as exact rationals (`ℚ`); Pearson's `r`, which the
program obtains through a floating square root, is embedded as a real
number.  Text is embedded as `List Char`.  The `st.stop` bail-outs for a
structurally bad table and for a player with fewer than two records are
embedded as the `Except` errors named by the specification
(`MalformedInputError`, `InsufficientDataError`).
-/

namespace Golf

/-- A raw cell of the wide score table: a numeric value, free text, or a
blank/NaN entry. -/
inductive Cell where
  | num : ℚ → Cell
  | text : List Char → Cell
  | blank : Cell
deriving DecidableEq

/-- Value of a digit string, most significant digit first (an empty list
gives 0). -/
def digitsVal (s : List Char) : ℕ :=
  s.foldl (fun a c => 10 * a + (c.toNat - 48)) 0

/-- Parse a nonempty all-digit string, otherwise fail. -/
def parseDigits (s : List Char) : Option ℕ :=
  if s.isEmpty then none
  else if s.all Char.isDigit then some (digitsVal s) else none

/-- Split a string at its first dot, if any. -/
def splitDot : List Char → List Char × Option (List Char)
  | [] => ([], none)
  | c :: cs =>
      if c = '.' then ([], some cs)
      else
        let p := splitDot cs
        (c :: p.1, p.2)

/-- Sign handling of the numeric parser: a leading `'-'` or `'+'` is
consumed and turned into a sign factor. -/
def splitSign : List Char → ℚ × List Char
  | '-' :: rest => (-1, rest)
  | '+' :: rest => (1, rest)
  | s => (1, s)

/-- Numeric parsing as performed by `pd.to_numeric(..., errors='coerce')`
on a string: an optional sign, an integer part and an optional fractional
part; anything else coerces to NaN (`none`).  (Exponent forms, which
`to_numeric` also accepts, are outside the fragment exercised here.) -/
def parseNumQ (s : List Char) : Option ℚ :=
  let sg := splitSign s
  match splitDot sg.2 with
  | (ip, none) => (parseDigits ip).map (fun n : ℕ => sg.1 * (n : ℚ))
  | (ip, some fp) =>
      if ip.isEmpty ∧ fp.isEmpty then none
      else if ip.all Char.isDigit ∧ fp.all Char.isDigit then
        some (sg.1 * ((digitsVal ip : ℚ) + (digitsVal fp : ℚ) / 10 ^ fp.length))
      else none

/-- Python `str.strip`: drop whitespace from both ends. -/
def stripEnds (s : List Char) : List Char :=
  ((s.dropWhile Char.isWhitespace).reverse.dropWhile Char.isWhitespace).reverse

/-- Truncation toward zero, the effect of `.astype(int)` on a float. -/
def truncQ (q : ℚ) : ℤ := if 0 ≤ q then ⌊q⌋ else -⌊-q⌋

/-- Round-label cleaning from `load_data`: remove every occurrence of the
character `'회'`, strip surrounding whitespace, then apply `to_numeric`. -/
def parseRound (label : List Char) : Option ℚ :=
  parseNumQ (stripEnds (label.filter (fun c => c ≠ '회')))

/-- Score cleaning from `load_data`: `pd.to_numeric(..., errors='coerce')`
keeps numbers, parses text and turns blanks into NaN (`none`). -/
def parseScore : Cell → Option ℚ
  | Cell.num q => some q
  | Cell.text s => parseNumQ (stripEnds s)
  | Cell.blank => none

/-- One row of the long-format frame produced by `load_data`. -/
structure ScoreRecord where
  player : List Char
  round_label : List Char
  round_number : ℤ
  score : ℚ
deriving DecidableEq

/-- The raw wide table: the column headers (the first names the
round-label column, the rest name the players) and the data rows, each a
round label together with the player cells in column order. -/
structure RawTable where
  headers : List (List Char)
  rows : List (List Char × List Cell)
deriving DecidableEq

/-- Structural failure of the Normalizer (`MalformedInputError`). -/
inductive NormError where
  | malformedInput : NormError
deriving DecidableEq

/-- Failure of the analytics stage (`InsufficientDataError`). -/
inductive AnalysisError where
  | insufficientData : AnalysisError
deriving DecidableEq

/-- The wide-to-long reshape of `df.melt`: for every player column in
column order, every row in row order yields the candidate
(round label, player, raw cell). -/
def meltCandidates (t : RawTable) : List (List Char × List Char × Cell) :=
  t.headers.tail.enum.flatMap (fun jp =>
    t.rows.map (fun r => (r.1, jp.2, r.2.getD jp.1 Cell.blank)))

/-- Row-level cleaning of one melted candidate: parse the round label and
the score; a candidate missing either is dropped (`dropna`), a surviving
round number is truncated to an integer (`astype(int)`). -/
def buildRecord (c : List Char × List Char × Cell) : Option ScoreRecord :=
  match parseRound c.1, parseScore c.2.2 with
  | some rq, some s => some ⟨c.2.1, c.1, truncQ rq, s⟩
  | _, _ => none

/-- The data-cleaning part of `load_data`: accessing `df.columns[0]` on a
table with no columns raises (caught and surfaced as the structural
error); otherwise melt, parse the round number and the score, drop
candidates missing either, truncate the round number to an integer and
sort by it. -/
def load_data (t : RawTable) : Except NormError (List ScoreRecord) :=
  if t.headers.isEmpty then Except.error NormError.malformedInput
  else
    Except.ok (List.insertionSort (fun a b => a.round_number ≤ b.round_number)
      ((meltCandidates t).filterMap buildRecord))

/-- The filter `df[df['Player'] == selected_player]`. -/
def playerRecords (records : List ScoreRecord) (player : List Char) : List ScoreRecord :=
  records.filter (fun r => r.player = player)

/-- The selected player's scores, in record order. -/
def playerScores (records : List ScoreRecord) (player : List Char) : List ℚ :=
  (playerRecords records player).map (fun r => r.score)

/-- The `Seq_Num` assignment: scores paired with 1-based sequence
indices. -/
def playerSeries (records : List ScoreRecord) (player : List Char) : List (ℕ × ℚ) :=
  (playerScores records player).enum.map (fun p => (p.1 + 1, p.2))

/-- Arithmetic mean of a list (pandas `.mean()`). -/
def mean (l : List ℚ) : ℚ := l.sum / l.length

/-- Pandas `.min()` over a nonempty column (0 for the unused empty case). -/
def listMin : List ℚ → ℚ
  | [] => 0
  | x :: xs => xs.foldl min x

/-- Pandas `.max()` over a nonempty column (0 for the unused empty case). -/
def listMax : List ℚ → ℚ
  | [] => 0
  | x :: xs => xs.foldl max x

/-- The regression abscissae `range(1, n+1)` used for `Seq_Num`. -/
def seqNums (n : ℕ) : List ℚ := (List.range n).map (fun i : ℕ => (i : ℚ) + 1)

/-- Biased covariance, as in `np.cov(x, y, bias=1)` inside
`scipy.stats.linregress`. -/
def covB (xs ys : List ℚ) : ℚ :=
  ((xs.zip ys).map (fun p => (p.1 - mean xs) * (p.2 - mean ys))).sum / xs.length

/-- Covariance of the sequence indices with themselves (`ssxm`). -/
def ssxm (ys : List ℚ) : ℚ := covB (seqNums ys.length) (seqNums ys.length)

/-- Covariance of the sequence indices with the scores (`ssxym`). -/
def ssxym (ys : List ℚ) : ℚ := covB (seqNums ys.length) ys

/-- Covariance of the scores with themselves (`ssym`). -/
def ssym (ys : List ℚ) : ℚ := covB ys ys

/-- Regression slope of `linregress`: `ssxym / ssxm`. -/
def slopeOf (ys : List ℚ) : ℚ := ssxym ys / ssxm ys

/-- Regression intercept of `linregress`: `ymean - slope * xmean`. -/
def interceptOf (ys : List ℚ) : ℚ :=
  mean ys - slopeOf ys * mean (seqNums ys.length)

/-- Pearson's `r` as `linregress` computes it, with its explicit guard
returning 0 when either variance vanishes.  The floating square root is
embedded as the real square root; in exact arithmetic the clamp of `r`
into `[-1, 1]` performed by scipy never fires, so it is omitted. -/
noncomputable def rValueOf (ys : List ℚ) : ℝ :=
  if ssxm ys = 0 ∨ ssym ys = 0 then 0
  else (ssxym ys : ℝ) / Real.sqrt ((ssxm ys : ℝ) * (ssym ys : ℝ))

/-- The coefficient of determination `r_value ** 2`, expressed inside `ℚ`
(the identity with `(rValueOf ys) ^ 2` is proved in `rSquaredOf_eq_sq`). -/
def rSquaredOf (ys : List ℚ) : ℚ :=
  if ssxm ys = 0 ∨ ssym ys = 0 then 0
  else ssxym ys ^ 2 / (ssxm ys * ssym ys)

/-- Par 72, the `STANDARD_PAR` constant. -/
def STANDARD_PAR : ℚ := 72

/-- The statistics displayed for a selected player. -/
structure AnalyticsResult where
  average_score : ℚ
  min_score : ℚ
  max_score : ℚ
  round_count : ℕ
  slope : ℚ
  intercept : ℚ
  r_squared : ℚ
  expected_total_change : ℚ
  handicap_best_n_average : ℚ
  handicap_over_par : ℚ
deriving DecidableEq

/-- The module-level analytics block: bail out with
`InsufficientDataError` when the selected player has fewer than two
records, otherwise compute the summary statistics, the regression over
the sequence indices, the best-N handicap average (mean of the lowest
`min 5 N` scores) and the over-par handicap. -/
def analyze (records : List ScoreRecord) (player : List Char) :
    Except AnalysisError AnalyticsResult :=
  let ys := playerScores records player
  if ys.length < 2 then Except.error AnalysisError.insufficientData
  else
    Except.ok
      { average_score := mean ys
        min_score := listMin ys
        max_score := listMax ys
        round_count := ys.length
        slope := slopeOf ys
        intercept := interceptOf ys
        r_squared := rSquaredOf ys
        expected_total_change := slopeOf ys * (ys.length : ℚ)
        handicap_best_n_average :=
          mean ((List.insertionSort (fun a b => a ≤ b) ys).take (min 5 ys.length))
        handicap_over_par := mean ys - STANDARD_PAR }

/-- Claim-side reading of the round-number extraction (for comparison
with the code's `parseRound`): remove all non-digit characters and parse
the remainder as an integer. -/
def claimDigitStripExtract (label : List Char) : Option ℤ :=
  (parseDigits (label.filter Char.isDigit)).map (fun n : ℕ => (n : ℤ))

/-- Claim-side count of invalid cells (for comparison with the code):
cells that are non-numeric or whose row label contains no digit. -/
def claimInvalidCount (t : RawTable) : ℕ :=
  ((meltCandidates t).filter (fun c =>
    parseScore c.2.2 = none ∨ ¬ c.1.any Char.isDigit)).length

/-- Count of candidate cells the code actually drops: the score fails
`to_numeric` or the cleaned round label does. -/
def codeInvalidCount (t : RawTable) : ℕ :=
  ((meltCandidates t).filter (fun c =>
    parseScore c.2.2 = none ∨ parseRound c.1 = none)).length

/-- Header text of the round column of the worked scenario. -/
def pRound : List Char := ['R', 'o', 'u', 'n', 'd']

/-- Column header of the first player of the worked scenario. -/
def pA : List Char := ['P', 'l', 'a', 'y', 'e', 'r', 'A']

/-- Column header of the second player of the worked scenario. -/
def pB : List Char := ['P', 'l', 'a', 'y', 'e', 'r', 'B']

/-- A one-letter player name used by the small hand-built record lists. -/
def pP : List Char := ['P']

/-- Round label of round 1 of the worked scenario. -/
def lb1 : List Char := ['1', '회']

/-- Round label of round 2 of the worked scenario. -/
def lb2 : List Char := ['2', '회']

/-- Round label of round 3 of the worked scenario. -/
def lb3 : List Char := ['3', '회']

/-- The worked scenario's raw table: rounds 1, 2, 3 with scores 90/88/92
for PlayerA and 85/80/78 for PlayerB. -/
def exTable : RawTable :=
  ⟨[pRound, pA, pB],
   [(lb1, [Cell.num 90, Cell.num 85]),
    (lb2, [Cell.num 88, Cell.num 80]),
    (lb3, [Cell.num 92, Cell.num 78])]⟩

/-- The normalised records produced from `exTable`. -/
def recsC7 : List ScoreRecord :=
  [⟨pA, lb1, 1, 90⟩, ⟨pB, lb1, 1, 85⟩, ⟨pA, lb2, 2, 88⟩,
   ⟨pB, lb2, 2, 80⟩, ⟨pA, lb3, 3, 92⟩, ⟨pB, lb3, 3, 78⟩]

/-- The analytics the program shows for PlayerB of the worked scenario. -/
def resB : AnalyticsResult :=
  ⟨81, 78, 85, 3, -7/2, 88, 49/52, -21/2, 81, 9⟩

/-- A round label holding a digit next to a letter: its digits can be
extracted, but `to_numeric` cannot parse the cleaned text. -/
def cexLabel : List Char := ['R', '1']

/-- A table whose only row carries the label `cexLabel` and a perfectly
numeric score. -/
def exC2 : RawTable := ⟨[['R'], ['P']], [(cexLabel, [Cell.num 90])]⟩

/-- A table with a single column: a round-label column and no player
columns. -/
def exC4 : RawTable := ⟨[['R']], [(['1', '회'], [])]⟩

/-- Six records of one player, all with the same score 80. -/
def recs6 : List ScoreRecord :=
  [⟨pP, lb1, 1, 80⟩, ⟨pP, lb2, 2, 80⟩, ⟨pP, lb3, 3, 80⟩,
   ⟨pP, lb1, 4, 80⟩, ⟨pP, lb2, 5, 80⟩, ⟨pP, lb3, 6, 80⟩]

/-- The analytics computed on `recs6`. -/
def res6 : AnalyticsResult :=
  ⟨80, 80, 80, 6, 0, 80, 0, 0, 80, 8⟩

/-- Two records of one player with the same score 80. -/
def recs8 : List ScoreRecord := [⟨pP, lb1, 1, 80⟩, ⟨pP, lb2, 2, 80⟩]

/-- The analytics computed on `recs8`. -/
def res8 : AnalyticsResult :=
  ⟨80, 80, 80, 2, 0, 80, 0, 0, 80, 8⟩

/-- One record of one player, below the two-record minimum. -/
def recs1 : List ScoreRecord := [⟨pP, lb1, 1, 80⟩]

/-! ### Evaluation lemmas for the concrete inputs -/

/-- Normalising the scenario table yields the six interleaved records. -/
theorem load_data_exTable : load_data exTable = Except.ok recsC7 := by
  simp +decide [load_data, meltCandidates, buildRecord, exTable, parseRound, parseNumQ,
    splitSign, stripEnds, splitDot, parseDigits, digitsVal, parseScore, truncQ, recsC7,
    pRound, pA, pB, lb1, lb2, lb3, List.insertionSort, List.orderedInsert]

/-- Inversion of a successful `analyze` call: the player has at least two
records and the result is the computed statistics block. -/
theorem analyze_ok {records : List ScoreRecord} {player : List Char}
    {res : AnalyticsResult} (h : analyze records player = Except.ok res) :
    2 ≤ (playerScores records player).length ∧
      res =
        { average_score := mean (playerScores records player)
          min_score := listMin (playerScores records player)
          max_score := listMax (playerScores records player)
          round_count := (playerScores records player).length
          slope := slopeOf (playerScores records player)
          intercept := interceptOf (playerScores records player)
          r_squared := rSquaredOf (playerScores records player)
          expected_total_change :=
            slopeOf (playerScores records player) * ((playerScores records player).length : ℚ)
          handicap_best_n_average :=
            mean ((List.insertionSort (fun a b => a ≤ b) (playerScores records player)).take
              (min 5 (playerScores records player).length))
          handicap_over_par := mean (playerScores records player) - STANDARD_PAR } := by
  rw [analyze] at h
  split at h
  · exact Except.noConfusion h
  · rename_i hlt
    exact ⟨by omega, (Except.ok.inj h).symm⟩

/-- The analytics of PlayerB of the worked scenario. -/
theorem analyze_recsC7_pB : analyze recsC7 pB = Except.ok resB := by
  simp +decide [analyze, playerScores, playerRecords, recsC7, pA, pB, mean, listMin,
    listMax, slopeOf, interceptOf, rSquaredOf, ssxym, ssxm, ssym, covB, seqNums,
    List.insertionSort, List.orderedInsert, List.range, List.range.loop, resB,
    STANDARD_PAR]
  norm_num

/-- The analytics of the six constant-score records. -/
theorem analyze_recs6_eval : analyze recs6 pP = Except.ok res6 := by
  simp +decide [analyze, playerScores, playerRecords, recs6, pP, mean, listMin,
    listMax, slopeOf, interceptOf, rSquaredOf, ssxym, ssxm, ssym, covB, seqNums,
    List.insertionSort, List.orderedInsert, List.range, List.range.loop, res6,
    STANDARD_PAR]
  norm_num

/-- The analytics of the two constant-score records. -/
theorem analyze_recs8_eval : analyze recs8 pP = Except.ok res8 := by
  simp +decide [analyze, playerScores, playerRecords, recs8, pP, mean, listMin,
    listMax, slopeOf, interceptOf, rSquaredOf, ssxym, ssxm, ssym, covB, seqNums,
    List.insertionSort, List.orderedInsert, List.range, List.range.loop, res8,
    STANDARD_PAR]
  norm_num

/-! ### List and mean lemmas -/

/-- A sum of nonnegative rationals is nonnegative. -/
theorem list_sum_nonneg : ∀ {l : List ℚ}, (∀ x ∈ l, 0 ≤ x) → 0 ≤ l.sum
  | [], _ => le_refl 0
  | x :: xs, h => by
      have hx := h x (List.mem_cons_self x xs)
      have ih := list_sum_nonneg (fun y hy => h y (List.mem_cons_of_mem x hy))
      simpa using add_nonneg hx ih

/-- A sum of nonnegative rationals vanishes only if every term does. -/
theorem list_all_zero_of_sum_eq_zero :
    ∀ {l : List ℚ}, (∀ x ∈ l, 0 ≤ x) → l.sum = 0 → ∀ x ∈ l, x = 0 := by
  intro l
  induction l with
  | nil => intro _ _ x hx; exact absurd hx (List.not_mem_nil x)
  | cons a as ih =>
      intro hnn hsum x hx
      have ha := hnn a (List.mem_cons_self a as)
      have has : 0 ≤ as.sum := list_sum_nonneg (fun y hy => hnn y (List.mem_cons_of_mem a hy))
      have hsum' : a + as.sum = 0 := by simpa using hsum
      have ha0 : a = 0 := by linarith
      have hs0 : as.sum = 0 := by linarith
      rcases List.mem_cons.mp hx with rfl | hx'
      · exact ha0
      · exact ih (fun y hy => hnn y (List.mem_cons_of_mem a hy)) hs0 x hx'

/-- A common lower bound multiplied by the length bounds the sum below. -/
theorem const_mul_length_le_sum {c : ℚ} :
    ∀ {l : List ℚ}, (∀ y ∈ l, c ≤ y) → c * l.length ≤ l.sum
  | [], _ => by simp
  | x :: xs, h => by
      have hx := h x (List.mem_cons_self x xs)
      have ih := const_mul_length_le_sum (fun y hy => h y (List.mem_cons_of_mem x hy))
      have : c * ((xs.length : ℚ) + 1) = c * xs.length + c := by ring
      simp only [List.sum_cons, List.length_cons]
      push_cast
      linarith

/-- A common upper bound multiplied by the length bounds the sum above. -/
theorem sum_le_const_mul_length {c : ℚ} :
    ∀ {l : List ℚ}, (∀ y ∈ l, y ≤ c) → l.sum ≤ c * l.length
  | [], _ => by simp
  | x :: xs, h => by
      have hx := h x (List.mem_cons_self x xs)
      have ih := sum_le_const_mul_length (fun y hy => h y (List.mem_cons_of_mem x hy))
      simp only [List.sum_cons, List.length_cons]
      push_cast
      linarith

/-- A list of constants sums to the constant times the length. -/
theorem list_sum_const {c : ℚ} :
    ∀ {l : List ℚ}, (∀ y ∈ l, y = c) → l.sum = c * l.length
  | [], _ => by simp
  | x :: xs, h => by
      have hx := h x (List.mem_cons_self x xs)
      have ih := list_sum_const (fun y hy => h y (List.mem_cons_of_mem x hy))
      simp only [List.sum_cons, List.length_cons]
      push_cast
      linarith

/-- Folding `min` only lowers the accumulator. -/
theorem foldl_min_le_init : ∀ (xs : List ℚ) (a : ℚ), xs.foldl min a ≤ a
  | [], a => le_refl a
  | x :: xs, a => le_trans (foldl_min_le_init xs (min a x)) (min_le_left a x)

/-- Folding `min` lies below every list element. -/
theorem foldl_min_le_mem :
    ∀ (xs : List ℚ) (a y : ℚ), y ∈ xs → xs.foldl min a ≤ y
  | x :: xs, a, y, h => by
      rcases List.mem_cons.mp h with rfl | h'
      · exact le_trans (foldl_min_le_init xs (min a y)) (min_le_right a y)
      · exact foldl_min_le_mem xs (min a x) y h'

/-- Folding `min` returns the accumulator or a list element. -/
theorem foldl_min_mem :
    ∀ (xs : List ℚ) (a : ℚ), xs.foldl min a = a ∨ xs.foldl min a ∈ xs
  | [], _ => Or.inl rfl
  | x :: xs, a => by
      rcases foldl_min_mem xs (min a x) with h | h
      · rcases min_choice a x with hm | hm
        · exact Or.inl (by rw [List.foldl_cons, h, hm])
        · exact Or.inr (by rw [List.foldl_cons, h, hm]; exact List.mem_cons_self x xs)
      · exact Or.inr (List.mem_cons_of_mem x h)

/-- Folding `max` only raises the accumulator. -/
theorem le_foldl_max_init : ∀ (xs : List ℚ) (a : ℚ), a ≤ xs.foldl max a
  | [], a => le_refl a
  | x :: xs, a => le_trans (le_max_left a x) (le_foldl_max_init xs (max a x))

/-- Folding `max` lies above every list element. -/
theorem mem_le_foldl_max :
    ∀ (xs : List ℚ) (a y : ℚ), y ∈ xs → y ≤ xs.foldl max a
  | x :: xs, a, y, h => by
      rcases List.mem_cons.mp h with rfl | h'
      · exact le_trans (le_max_right a y) (le_foldl_max_init xs (max a y))
      · exact mem_le_foldl_max xs (max a x) y h'

/-- Folding `max` returns the accumulator or a list element. -/
theorem foldl_max_mem :
    ∀ (xs : List ℚ) (a : ℚ), xs.foldl max a = a ∨ xs.foldl max a ∈ xs
  | [], _ => Or.inl rfl
  | x :: xs, a => by
      rcases foldl_max_mem xs (max a x) with h | h
      · rcases max_choice a x with hm | hm
        · exact Or.inl (by rw [List.foldl_cons, h, hm])
        · exact Or.inr (by rw [List.foldl_cons, h, hm]; exact List.mem_cons_self x xs)
      · exact Or.inr (List.mem_cons_of_mem x h)

/-- `listMin` lies below every element. -/
theorem listMin_le_of_mem {l : List ℚ} {y : ℚ} (h : y ∈ l) : listMin l ≤ y := by
  match l with
  | x :: xs =>
      rcases List.mem_cons.mp h with rfl | h'
      · exact foldl_min_le_init xs y
      · exact foldl_min_le_mem xs x y h'

/-- Every element lies below `listMax`. -/
theorem le_listMax_of_mem {l : List ℚ} {y : ℚ} (h : y ∈ l) : y ≤ listMax l := by
  match l with
  | x :: xs =>
      rcases List.mem_cons.mp h with rfl | h'
      · exact le_foldl_max_init xs y
      · exact mem_le_foldl_max xs x y h'

/-- `listMin` of a nonempty list is one of its elements. -/
theorem listMin_mem {l : List ℚ} (h : l ≠ []) : listMin l ∈ l := by
  match l with
  | x :: xs =>
      rcases foldl_min_mem xs x with h' | h'
      · rw [listMin, h']; exact List.mem_cons_self x xs
      · exact List.mem_cons_of_mem x h'

/-- `listMax` of a nonempty list is one of its elements. -/
theorem listMax_mem {l : List ℚ} (h : l ≠ []) : listMax l ∈ l := by
  match l with
  | x :: xs =>
      rcases foldl_max_mem xs x with h' | h'
      · rw [listMax, h']; exact List.mem_cons_self x xs
      · exact List.mem_cons_of_mem x h'

/-- The length of a nonempty list is positive as a rational. -/
theorem length_cast_pos {l : List ℚ} (h : l ≠ []) : (0 : ℚ) < l.length := by
  have := List.length_pos.mpr h
  exact_mod_cast this

/-- The mean of constants is the constant. -/
theorem mean_const {c : ℚ} {l : List ℚ} (hc : ∀ y ∈ l, y = c) (h : l ≠ []) :
    mean l = c := by
  have hpos := length_cast_pos h
  rw [mean, list_sum_const hc, mul_div_assoc, div_self (ne_of_gt hpos), mul_one]

/-- The mean lies above `listMin`. -/
theorem listMin_le_mean {l : List ℚ} (h : l ≠ []) : listMin l ≤ mean l := by
  have hpos := length_cast_pos h
  rw [mean, le_div_iff₀ hpos]
  exact const_mul_length_le_sum (fun y hy => listMin_le_of_mem hy)

/-- The mean lies below `listMax`. -/
theorem mean_le_listMax {l : List ℚ} (h : l ≠ []) : mean l ≤ listMax l := by
  have hpos := length_cast_pos h
  rw [mean, div_le_iff₀ hpos]
  exact sum_le_const_mul_length (fun y hy => le_listMax_of_mem hy)

/-- Zipping a list with itself pairs each element with itself. -/
theorem zip_self_eq_map : ∀ (l : List ℚ), l.zip l = l.map (fun a => (a, a))
  | [] => rfl
  | x :: xs => by rw [List.zip_cons_cons, List.map_cons, zip_self_eq_map xs]

/-- Sums against pointwise-dominating lists: if every element of `A` is
below every element of `B`, the cross products of sums and lengths are
ordered. -/
theorem sum_mul_le_of_le :
    ∀ {A : List ℚ} {B : List ℚ}, (∀ a ∈ A, ∀ b ∈ B, a ≤ b) →
      A.sum * B.length ≤ B.sum * A.length
  | [], _, _ => by simp
  | a :: A, B, h => by
      have ha : a * B.length ≤ B.sum := by
        rw [mul_comm]
        exact
          le_of_eq_of_le (mul_comm (B.length : ℚ) a)
            (const_mul_length_le_sum (fun b hb => h a (List.mem_cons_self a A) b hb))
      have ih := sum_mul_le_of_le (fun x hx b hb => h x (List.mem_cons_of_mem a hx) b hb)
      simp only [List.sum_cons, List.length_cons]
      push_cast
      nlinarith [ha, ih]

/-! ### Covariance and regression lemmas -/

/-- Length of the sequence-index list. -/
theorem seqNums_length (n : ℕ) : (seqNums n).length = n := by
  rw [seqNums, List.length_map, List.length_range]

/-- A self-covariance is an average of squares. -/
theorem covB_self (l : List ℚ) :
    covB l l = (l.map (fun y => (y - mean l) * (y - mean l))).sum / l.length := by
  rw [covB, zip_self_eq_map, List.map_map]
  rfl

/-- A self-covariance is nonnegative. -/
theorem covB_self_nonneg (l : List ℚ) : 0 ≤ covB l l := by
  rw [covB_self]
  apply div_nonneg
  · apply list_sum_nonneg
    intro x hx
    obtain ⟨y, _, rfl⟩ := List.mem_map.mp hx
    exact mul_self_nonneg _
  · exact_mod_cast Nat.zero_le _

/-- A vanishing self-covariance forces every element to the mean. -/
theorem covB_self_zero {l : List ℚ} (hne : l ≠ []) (h : covB l l = 0) :
    ∀ y ∈ l, y = mean l := by
  rw [covB_self] at h
  have hpos := length_cast_pos hne
  have hsum : (l.map (fun y => (y - mean l) * (y - mean l))).sum = 0 :=
    (div_eq_zero_iff.mp h).resolve_right (ne_of_gt hpos)
  intro y hy
  have hterm :=
    list_all_zero_of_sum_eq_zero
      (fun x hx => by
        obtain ⟨z, _, rfl⟩ := List.mem_map.mp hx
        exact mul_self_nonneg _)
      hsum ((y - mean l) * (y - mean l)) (List.mem_map_of_mem _ hy)
  have := mul_self_eq_zero.mp hterm
  linarith [sub_eq_zero.mp this]

/-- A covariance against a constant list vanishes. -/
theorem covB_zero_of_right_const {xs ys : List ℚ} (h : ∀ y ∈ ys, y = mean ys) :
    covB xs ys = 0 := by
  rw [covB]
  rw [List.sum_eq_zero, zero_div]
  intro x hx
  obtain ⟨p, hp, rfl⟩ := List.mem_map.mp hx
  obtain ⟨p1, p2⟩ := p
  have hy : p2 ∈ ys := (List.of_mem_zip hp).2
  rw [h p2 hy, sub_self, mul_zero]

/-- The sequence indices of at least two rounds have positive variance. -/
theorem ssxm_pos {ys : List ℚ} (h2 : 2 ≤ ys.length) : 0 < ssxm ys := by
  rw [ssxm]
  have hlen : (seqNums ys.length).length = ys.length := seqNums_length _
  have hne : seqNums ys.length ≠ [] := by
    intro hnil
    rw [hnil] at hlen
    simp at hlen
    omega
  rcases eq_or_lt_of_le (covB_self_nonneg (seqNums ys.length)) with heq | hlt
  · exfalso
    have hconst := covB_self_zero hne heq.symm
    have h1 : (1 : ℚ) ∈ seqNums ys.length := by
      rw [seqNums]
      refine List.mem_map.mpr ⟨0, ?_, by norm_num⟩
      exact List.mem_range.mpr (by omega)
    have h2' : (2 : ℚ) ∈ seqNums ys.length := by
      rw [seqNums]
      refine List.mem_map.mpr ⟨1, ?_, by norm_num⟩
      exact List.mem_range.mpr (by omega)
    have e1 := hconst 1 h1
    have e2 := hconst 2 h2'
    rw [← e1] at e2
    norm_num at e2
  · exact hlt

/-- The score variance is nonnegative. -/
theorem ssym_nonneg (ys : List ℚ) : 0 ≤ ssym ys := by
  rw [ssym]; exact covB_self_nonneg ys

/-- A vanishing score variance forces constant scores. -/
theorem ssym_zero_const {ys : List ℚ} (hne : ys ≠ []) (h : ssym ys = 0) :
    ∀ y ∈ ys, y = mean ys := by
  rw [ssym] at h
  exact covB_self_zero hne h

/-- Constant scores kill the cross covariance. -/
theorem ssxym_zero_of_const {ys : List ℚ} (h : ∀ y ∈ ys, y = mean ys) :
    ssxym ys = 0 := by
  rw [ssxym]
  exact covB_zero_of_right_const h

/-- The rational `r_squared` of the embedding is exactly the square of the
real `r_value`, justifying computing it inside `ℚ`. -/
theorem rSquaredOf_eq_sq (ys : List ℚ) : (rSquaredOf ys : ℝ) = rValueOf ys ^ 2 := by
  rw [rSquaredOf, rValueOf]
  by_cases hg : ssxm ys = 0 ∨ ssym ys = 0
  · rw [if_pos hg, if_pos hg]
    norm_num
  · rw [if_neg hg, if_neg hg]
    push_neg at hg
    have hx : 0 < ssxm ys :=
      lt_of_le_of_ne (by rw [ssxm]; exact covB_self_nonneg _) (Ne.symm hg.1)
    have hy : 0 < ssym ys :=
      lt_of_le_of_ne (ssym_nonneg ys) (Ne.symm hg.2)
    have hprod : (0 : ℝ) ≤ (ssxm ys : ℝ) * (ssym ys : ℝ) := by positivity
    rw [div_pow, Real.sq_sqrt hprod]
    push_cast
    ring

/-- The mean of the first `k` elements of a sorted list is at most the
mean of the whole list. -/
theorem mean_take_le_mean_of_sorted {zs : List ℚ}
    (hs : List.Sorted (fun a b => a ≤ b) zs) {k : ℕ} (hk1 : 1 ≤ k)
    (hkn : k ≤ zs.length) : mean (zs.take k) ≤ mean zs := by
  have hsplit : zs.take k ++ zs.drop k = zs := List.take_append_drop k zs
  have hp : List.Pairwise (fun a b => a ≤ b) (zs.take k ++ zs.drop k) := by
    rw [hsplit]; exact hs
  have hAB := (List.pairwise_append.mp hp).2.2
  have hlenA : (zs.take k).length = k := by
    rw [List.length_take]; omega
  have hlenN : zs.length = (zs.take k).length + (zs.drop k).length := by
    conv_lhs => rw [← hsplit]
    rw [List.length_append]
  have hsumN : zs.sum = (zs.take k).sum + (zs.drop k).sum := by
    conv_lhs => rw [← hsplit]
    rw [List.sum_append]
  have hkey := sum_mul_le_of_le hAB
  have hApos : (0 : ℚ) < (zs.take k).length := by
    rw [hlenA]; exact_mod_cast hk1
  have hNpos : (0 : ℚ) < zs.length := by
    have hz : 0 < zs.length := by omega
    exact_mod_cast hz
  rw [mean, mean, div_le_div_iff₀ hApos hNpos, hsumN, hlenN]
  push_cast
  nlinarith [hkey]

/-! ### Parsing lemmas -/

/-- Sign splitting returns a sublist of its input. -/
theorem splitSign_mem : ∀ (s : List Char), ∀ c ∈ (splitSign s).2, c ∈ s := by
  intro s
  unfold splitSign
  split
  · intro c hc; exact List.mem_cons_of_mem _ hc
  · intro c hc; exact List.mem_cons_of_mem _ hc
  · intro c hc; exact hc

/-- Both halves of the dot split are made of characters of the input. -/
theorem splitDot_mem :
    ∀ (s : List Char),
      (∀ c ∈ (splitDot s).1, c ∈ s) ∧
        (∀ fp, (splitDot s).2 = some fp → ∀ c ∈ fp, c ∈ s)
  | [] =>
      ⟨fun c hc => absurd hc (List.not_mem_nil c),
       fun fp hfp => by simp [splitDot] at hfp⟩
  | c :: cs => by
      rw [splitDot]
      by_cases hdot : c = '.'
      · rw [if_pos hdot]
        refine ⟨fun x hx => absurd hx (List.not_mem_nil x), ?_⟩
        intro fp hfp x hx
        have : cs = fp := by simpa using hfp
        subst this
        exact List.mem_cons_of_mem c hx
      · rw [if_neg hdot]
        have ih := splitDot_mem cs
        constructor
        · intro x hx
          simp only at hx
          rcases List.mem_cons.mp hx with rfl | hx'
          · exact List.mem_cons_self x cs
          · exact List.mem_cons_of_mem c (ih.1 x hx')
        · intro fp hfp x hx
          simp only at hfp
          exact List.mem_cons_of_mem c (ih.2 fp hfp x hx)

/-- Stripping whitespace keeps a subset of the characters. -/
theorem stripEnds_mem (s : List Char) : ∀ c ∈ stripEnds s, c ∈ s := by
  intro c hc
  rw [stripEnds, List.mem_reverse] at hc
  have hc1 := (List.dropWhile_sublist (l := (s.dropWhile Char.isWhitespace).reverse)
    (p := Char.isWhitespace)).subset hc
  rw [List.mem_reverse] at hc1
  exact (List.dropWhile_sublist (l := s) (p := Char.isWhitespace)).subset hc1

/-- A digit-free string is rejected by the digit parser. -/
theorem parseDigits_eq_none {s : List Char} (h : ∀ c ∈ s, ¬ c.isDigit = true) :
    parseDigits s = none := by
  match s with
  | [] => rfl
  | c :: cs =>
      have hc := h c (List.mem_cons_self c cs)
      simp [parseDigits, List.all_cons, hc]

/-- A digit-free string is rejected by the numeric parser. -/
theorem parseNumQ_eq_none {s : List Char} (h : ∀ c ∈ s, ¬ c.isDigit = true) :
    parseNumQ s = none := by
  have hbody : ∀ c ∈ (splitSign s).2, ¬ c.isDigit = true :=
    fun c hc => h c (splitSign_mem s c hc)
  rw [parseNumQ]
  rcases hsd : splitDot (splitSign s).2 with ⟨ip, fpOpt⟩
  have hsm := splitDot_mem (splitSign s).2
  rw [hsd] at hsm
  have hip : ∀ c ∈ ip, ¬ c.isDigit = true := fun c hc => hbody c (hsm.1 c hc)
  cases fpOpt with
  | none =>
      change Option.map _ (parseDigits ip) = none
      rw [parseDigits_eq_none hip, Option.map_none']
  | some fp =>
      have hfp : ∀ c ∈ fp, ¬ c.isDigit = true :=
        fun c hc => hbody c (hsm.2 fp rfl c hc)
      cases ip with
      | nil =>
          cases fp with
          | nil => simp
          | cons d ds =>
              have hd := hfp d (List.mem_cons_self d ds)
              simp [hd]
      | cons d ds =>
          have hd := hip d (List.mem_cons_self d ds)
          simp [hd]

/-- A successfully parsed round label contains a digit. -/
theorem parseRound_some_digit {label : List Char} {q : ℚ}
    (h : parseRound label = some q) : label.any Char.isDigit = true := by
  by_contra hno
  have hall : ∀ c ∈ label, ¬ c.isDigit = true := by
    intro c hc hd
    exact hno (List.any_eq_true.mpr ⟨c, hc, hd⟩)
  have hstr : ∀ c ∈ stripEnds (label.filter (fun c => c ≠ '회')), ¬ c.isDigit = true := by
    intro c hc
    exact hall c (List.mem_of_mem_filter (stripEnds_mem _ c hc))
  rw [parseRound, parseNumQ_eq_none hstr] at h
  exact Option.noConfusion h

/-! ### Counting lemmas for the reshape -/

/-- Kept and dropped candidates of a `filterMap` partition the input. -/
theorem length_filterMap_add {α β : Type} (f : α → Option β) :
    ∀ l : List α,
      (l.filterMap f).length + (l.filter (fun a => (f a).isNone)).length = l.length := by
  intro l
  induction l with
  | nil => rfl
  | cons a as ih =>
      cases hfa : f a with
      | none =>
          simp only [List.filterMap_cons, List.filter_cons, hfa, Option.isNone_none,
            List.length_cons]
          simpa using by omega
      | some b =>
          simp only [List.filterMap_cons, List.filter_cons, hfa, Option.isNone_some,
            List.length_cons]
          simpa using by omega

/-- A `flatMap` whose pieces share one length multiplies lengths. -/
theorem length_flatMap_const {γ δ : Type} (g : γ → List δ) (m : ℕ) :
    ∀ l : List γ, (∀ x ∈ l, (g x).length = m) →
      (l.flatMap g).length = l.length * m := by
  intro l
  induction l with
  | nil => simp
  | cons a as ih =>
      intro h
      have ha := h a (List.mem_cons_self a as)
      have ih' := ih (fun x hx => h x (List.mem_cons_of_mem a hx))
      simp only [List.flatMap_cons, List.length_append, List.length_cons, ha, ih']
      ring

/-- The melt emits one candidate per (player column, row) pair. -/
theorem meltCandidates_length (t : RawTable) :
    (meltCandidates t).length = t.headers.tail.length * t.rows.length := by
  rw [meltCandidates]
  rw [length_flatMap_const _ t.rows.length _ (fun x _ => List.length_map _ _)]
  rw [List.enum_length]

/-- A candidate is dropped exactly when its score or its cleaned round
label fails to parse. -/
theorem buildRecord_isNone (c : List Char × List Char × Cell) :
    (buildRecord c).isNone =
      decide (parseScore c.2.2 = none ∨ parseRound c.1 = none) := by
  rw [buildRecord]
  cases hr : parseRound c.1 <;> cases hs : parseScore c.2.2 <;> simp [hr, hs]

/-- Inversion of a kept candidate: both parses succeeded and the record
is assembled from them. -/
theorem buildRecord_some {c : List Char × List Char × Cell} {r : ScoreRecord}
    (h : buildRecord c = some r) :
    ∃ rq s, parseRound c.1 = some rq ∧ parseScore c.2.2 = some s ∧
      r = ⟨c.2.1, c.1, truncQ rq, s⟩ := by
  rw [buildRecord] at h
  cases hr : parseRound c.1 with
  | none =>
      rw [hr] at h
      cases hs : parseScore c.2.2 <;> rw [hs] at h <;> exact Option.noConfusion h
  | some rq =>
      rw [hr] at h
      cases hs : parseScore c.2.2 with
      | none => rw [hs] at h; exact Option.noConfusion h
      | some s =>
          rw [hs] at h
          exact ⟨rq, s, rfl, rfl, (Option.some.inj h).symm⟩

/-! ### Claim theorems -/

/-- C1 (counterexample): the Normalizer does not extract the round number
by removing all non-digit characters — on the label `"R1"` the digit-strip
reading yields 1 while the code's cleaning (remove `'회'`, strip, parse)
yields nothing. -/
theorem C1_counterexample :
    ¬ ((parseRound cexLabel).map truncQ = claimDigitStripExtract cexLabel) := by
  decide

/-- C1 (amended): every record produced by the Normalizer carries a round
number obtained by removing the occurrences of `'회'` and surrounding
whitespace from its label and parsing the remainder (truncated to an
integer), and its label therefore contains a digit; a candidate whose
label fails this parse — in particular any label with no digits — produces
no record. -/
theorem C1_amended_extraction (t : RawTable) (recs : List ScoreRecord)
    (r : ScoreRecord) (hld : load_data t = Except.ok recs) (hmem : r ∈ recs) :
    (∃ q, parseRound r.round_label = some q ∧ r.round_number = truncQ q) ∧
      r.round_label.any Char.isDigit = true := by
  rw [load_data] at hld
  split at hld
  · exact Except.noConfusion hld
  · have hrecs := Except.ok.inj hld
    subst hrecs
    have hmem' : r ∈ (meltCandidates t).filterMap buildRecord :=
      (List.perm_insertionSort _ _).mem_iff.mp hmem
    obtain ⟨c, _, hfc⟩ := List.mem_filterMap.mp hmem'
    obtain ⟨rq, s, hr, _, rfl⟩ := buildRecord_some hfc
    exact ⟨⟨rq, hr, rfl⟩, parseRound_some_digit hr⟩

/-- C1 (witness): the amended extraction at a concrete record of the
worked scenario. -/
theorem C1_witness :
    load_data exTable = Except.ok recsC7 ∧
      (⟨pA, lb1, (1 : ℤ), (90 : ℚ)⟩ : ScoreRecord) ∈ recsC7 ∧
      ((∃ q, parseRound (⟨pA, lb1, (1 : ℤ), (90 : ℚ)⟩ : ScoreRecord).round_label =
            some q ∧
          (⟨pA, lb1, (1 : ℤ), (90 : ℚ)⟩ : ScoreRecord).round_number = truncQ q) ∧
        (⟨pA, lb1, (1 : ℤ), (90 : ℚ)⟩ : ScoreRecord).round_label.any Char.isDigit =
          true) :=
  ⟨load_data_exTable, by decide,
    C1_amended_extraction exTable recsC7 _ load_data_exTable (by decide)⟩

/-- C2 (counterexample): the record count is not `P × R` minus the number
of cells that are non-numeric or whose label has no digits — a one-cell
table with a numeric score and the label `"R1"` (which has a digit)
produces 0 records, not 1. -/
theorem C2_counterexample :
    ¬ ((load_data exC2).toOption.map List.length =
        some (exC2.headers.tail.length * exC2.rows.length - claimInvalidCount exC2)) := by
  decide

/-- C2 (amended): `normalize` produces at most `P × R` records, and
exactly `P × R` minus the number of cells whose score is non-numeric or
whose row label fails the code's label cleaning (removal of `'회'`,
strip, numeric parse). -/
theorem C2_amended_record_count (t : RawTable) (recs : List ScoreRecord)
    (h : load_data t = Except.ok recs) :
    recs.length = t.headers.tail.length * t.rows.length - codeInvalidCount t ∧
      recs.length ≤ t.headers.tail.length * t.rows.length := by
  rw [load_data] at h
  split at h
  · exact Except.noConfusion h
  · have hrecs := Except.ok.inj h
    subst hrecs
    rw [List.length_insertionSort]
    have hpart := length_filterMap_add buildRecord (meltCandidates t)
    have hfilter :
        ((meltCandidates t).filter (fun c => (buildRecord c).isNone)).length =
          codeInvalidCount t := by
      rw [codeInvalidCount]
      congr 1
      exact List.filter_congr (fun c _ => buildRecord_isNone c)
    rw [hfilter, meltCandidates_length] at hpart
    omega

/-- C2 (witness): the amended count at the worked scenario: 6 records out
of 2 players times 3 rows with no dropped cell. -/
theorem C2_witness :
    load_data exTable = Except.ok recsC7 ∧
      (recsC7.length =
          exTable.headers.tail.length * exTable.rows.length - codeInvalidCount exTable ∧
        recsC7.length ≤ exTable.headers.tail.length * exTable.rows.length) :=
  ⟨load_data_exTable, C2_amended_record_count exTable recsC7 load_data_exTable⟩

/-- C3: with fewer than two records for the selected player — no record
or a single one — the analytics stage fails with `InsufficientDataError`
and produces no result. -/
theorem C3_insufficient_data (records : List ScoreRecord) (player : List Char)
    (h : (playerRecords records player).length < 2) :
    analyze records player = Except.error AnalysisError.insufficientData := by
  have h' : (playerScores records player).length < 2 := by
    rw [playerScores, List.length_map]
    exact h
  simp only [analyze]
  rw [if_pos h']

/-- C3 (witness): a single-record player is rejected. -/
theorem C3_witness :
    (playerRecords recs1 pP).length < 2 ∧
      analyze recs1 pP = Except.error AnalysisError.insufficientData :=
  ⟨by decide, C3_insufficient_data recs1 pP (by decide)⟩

/-- C4 (counterexample): a table with exactly one column — fewer than two
— does not make the Normalizer fail; it returns an empty record list. -/
theorem C4_counterexample :
    exC4.headers.length < 2 ∧ load_data exC4 = Except.ok [] := by
  exact ⟨by decide, rfl⟩

/-- C4 (amended): the Normalizer never raises for malformed cells — it
succeeds on every table that has at least one column, in particular on a
one-column table (yielding no records) — and fails with
`MalformedInputError` exactly when the table has no columns at all. -/
theorem C4_amended_structural_error (t : RawTable) :
    (∃ recs, load_data t = Except.ok recs) ↔ t.headers ≠ [] := by
  rw [load_data]
  by_cases hemp : t.headers.isEmpty
  · rw [if_pos hemp]
    rw [List.isEmpty_iff] at hemp
    simp [hemp]
  · rw [if_neg hemp]
    rw [List.isEmpty_iff] at hemp
    simp [hemp]

/-- C6 (counterexample): six equal scores give `handicap_best_n_average =
average_score` although `round_count = 6 > 5`, so equality does not hold
exactly when `N ≤ 5`. -/
theorem C6_counterexample :
    analyze recs6 pP = Except.ok res6 ∧
      res6.handicap_best_n_average = res6.average_score ∧
      ¬ (res6.round_count ≤ 5) :=
  ⟨analyze_recs6_eval, rfl, by decide⟩

/-- C6 (amended): the best-N handicap average never exceeds the overall
average, and the two agree whenever `N ≤ 5` (for `N > 5` equality is
possible but not guaranteed). -/
theorem C6_amended_handicap_bound (records : List ScoreRecord) (player : List Char)
    (res : AnalyticsResult) (h : analyze records player = Except.ok res) :
    res.handicap_best_n_average ≤ res.average_score ∧
      (res.round_count ≤ 5 → res.handicap_best_n_average = res.average_score) := by
  obtain ⟨h2, rfl⟩ := analyze_ok h
  dsimp only
  set ys := playerScores records player with hys
  have hsorted := List.sorted_insertionSort (fun a b => a ≤ b) ys
  have hperm := List.perm_insertionSort (fun a b => a ≤ b) ys
  have hlen := hperm.length_eq
  have hmean : mean (List.insertionSort (fun a b => a ≤ b) ys) = mean ys := by
    rw [mean, mean, hperm.sum_eq, hlen]
  constructor
  · have hk1 : 1 ≤ min 5 ys.length := by omega
    have hkn : min 5 ys.length ≤ (List.insertionSort (fun a b => a ≤ b) ys).length := by
      omega
    have hle := mean_take_le_mean_of_sorted hsorted hk1 hkn
    rw [hmean] at hle
    exact hle
  · intro h5
    have hmin : min 5 ys.length = ys.length := by omega
    rw [hmin, ← hlen, List.take_length]
    exact hmean

/-- C6 (witness): the amended bound at PlayerB of the worked scenario. -/
theorem C6_witness :
    analyze recsC7 pB = Except.ok resB ∧
      (resB.handicap_best_n_average ≤ resB.average_score ∧
        (resB.round_count ≤ 5 →
          resB.handicap_best_n_average = resB.average_score)) :=
  ⟨analyze_recsC7_pB, C6_amended_handicap_bound recsC7 pB resB analyze_recsC7_pB⟩

/-- C7: the worked scenario — normalising the three-round two-player
table yields 6 records, and the PlayerB analysis gives average 81,
minimum 78, maximum 85, sequence indices 1, 2, 3 paired with 85, 80, 78,
slope −3.5 and best-N handicap average 81. -/
theorem C7_scenario :
    load_data exTable = Except.ok recsC7 ∧
      recsC7.length = 6 ∧
      playerSeries recsC7 pB = [(1, 85), (2, 80), (3, 78)] ∧
      analyze recsC7 pB = Except.ok resB ∧
      resB.average_score = 81 ∧ resB.min_score = 78 ∧ resB.max_score = 85 ∧
      resB.slope = -7 / 2 ∧ resB.handicap_best_n_average = 81 :=
  ⟨load_data_exTable, by decide, by decide, analyze_recsC7_pB,
    rfl, rfl, rfl, rfl, rfl⟩

/-- C8: a player whose records all share one score gets slope 0,
`r_squared` 0, and equal average, minimum and maximum. -/
theorem C8_constant_scores (records : List ScoreRecord) (player : List Char)
    (c : ℚ) (res : AnalyticsResult) (h : analyze records player = Except.ok res)
    (hc : ∀ r ∈ playerRecords records player, r.score = c) :
    res.slope = 0 ∧ res.r_squared = 0 ∧
      res.average_score = res.min_score ∧ res.average_score = res.max_score := by
  obtain ⟨h2, rfl⟩ := analyze_ok h
  dsimp only
  set ys := playerScores records player with hys
  have hysc : ∀ y ∈ ys, y = c := by
    intro y hy
    rw [hys, playerScores] at hy
    obtain ⟨r, hr, rfl⟩ := List.mem_map.mp hy
    exact hc r hr
  have hne : ys ≠ [] := by
    intro hnil
    rw [hnil] at h2
    simp at h2
  have hmeanc : mean ys = c := mean_const hysc hne
  have hconst : ∀ y ∈ ys, y = mean ys := by
    intro y hy
    rw [hmeanc]
    exact hysc y hy
  have hssym : ssym ys = 0 := by
    rw [ssym]
    exact covB_zero_of_right_const hconst
  have hssxym : ssxym ys = 0 := ssxym_zero_of_const hconst
  refine ⟨?_, ?_, ?_, ?_⟩
  · rw [slopeOf, hssxym, zero_div]
  · rw [rSquaredOf, if_pos (Or.inr hssym)]
  · rw [hmeanc]
    exact (hysc _ (listMin_mem hne)).symm
  · rw [hmeanc]
    exact (hysc _ (listMax_mem hne)).symm

/-- C8 (witness): the constant-score analysis at two records of score
80. -/
theorem C8_witness :
    analyze recs8 pP = Except.ok res8 ∧
      (∀ r ∈ playerRecords recs8 pP, r.score = 80) ∧
      (res8.slope = 0 ∧ res8.r_squared = 0 ∧
        res8.average_score = res8.min_score ∧
        res8.average_score = res8.max_score) :=
  ⟨analyze_recs8_eval, by decide,
    C8_constant_scores recs8 pP 80 res8 analyze_recs8_eval (by decide)⟩

/-- C9: the average always lies between the minimum and the maximum of
the selected player's scores. -/
theorem C9_mean_between_min_max (records : List ScoreRecord) (player : List Char)
    (res : AnalyticsResult) (h : analyze records player = Except.ok res) :
    res.min_score ≤ res.average_score ∧ res.average_score ≤ res.max_score := by
  obtain ⟨h2, rfl⟩ := analyze_ok h
  dsimp only
  have hne : playerScores records player ≠ [] := by
    intro hnil
    rw [hnil] at h2
    simp at h2
  exact ⟨listMin_le_mean hne, mean_le_listMax hne⟩

/-- C9 (witness): the bound at PlayerB of the worked scenario. -/
theorem C9_witness :
    analyze recsC7 pB = Except.ok resB ∧
      (resB.min_score ≤ resB.average_score ∧
        resB.average_score ≤ resB.max_score) :=
  ⟨analyze_recsC7_pB, C9_mean_between_min_max recsC7 pB resB analyze_recsC7_pB⟩

/-- C10: the regression slope and Pearson's `r` share their sign — their
product is nonnegative and one vanishes exactly when the other does. -/
theorem C10_slope_r_sign (records : List ScoreRecord) (player : List Char)
    (res : AnalyticsResult) (h : analyze records player = Except.ok res) :
    0 ≤ (res.slope : ℝ) * rValueOf (playerScores records player) ∧
      (rValueOf (playerScores records player) = 0 ↔ res.slope = 0) := by
  obtain ⟨h2, rfl⟩ := analyze_ok h
  dsimp only
  set ys := playerScores records player with hys
  have hx : 0 < ssxm ys := ssxm_pos h2
  have hne : ys ≠ [] := by
    intro hnil
    rw [hnil] at h2
    simp at h2
  by_cases hg : ssxm ys = 0 ∨ ssym ys = 0
  · have hsym : ssym ys = 0 := hg.resolve_left (ne_of_gt hx)
    have hconst := ssym_zero_const hne hsym
    have hxym : ssxym ys = 0 := ssxym_zero_of_const hconst
    have hslope : slopeOf ys = 0 := by rw [slopeOf, hxym, zero_div]
    rw [rValueOf, if_pos hg, hslope]
    norm_num
  · rw [rValueOf, if_neg hg]
    push_neg at hg
    have hsy : 0 < ssym ys := lt_of_le_of_ne (ssym_nonneg ys) (Ne.symm hg.2)
    have hxR : (0 : ℝ) < (ssxm ys : ℝ) := by exact_mod_cast hx
    have hyR : (0 : ℝ) < (ssym ys : ℝ) := by exact_mod_cast hsy
    have hsqrt : 0 < Real.sqrt ((ssxm ys : ℝ) * (ssym ys : ℝ)) :=
      Real.sqrt_pos.mpr (mul_pos hxR hyR)
    have hcast : (slopeOf ys : ℝ) = (ssxym ys : ℝ) / (ssxm ys : ℝ) := by
      rw [slopeOf]
      push_cast
      ring
    constructor
    · rw [hcast, div_mul_div_comm]
      exact div_nonneg (mul_self_nonneg _)
        (mul_nonneg (le_of_lt hxR) (le_of_lt hsqrt))
    · rw [div_eq_zero_iff]
      constructor
      · rintro (hz | hz)
        · have hz' : ssxym ys = 0 := by exact_mod_cast hz
          rw [slopeOf, hz', zero_div]
        · exact absurd hz (ne_of_gt hsqrt)
      · intro hz
        left
        rw [slopeOf, div_eq_zero_iff] at hz
        have hz' : ssxym ys = 0 := hz.resolve_right (ne_of_gt hx)
        exact_mod_cast hz'

/-- C10 (witness): the sign agreement at PlayerB of the worked
scenario. -/
theorem C10_witness :
    analyze recsC7 pB = Except.ok resB ∧
      (0 ≤ (resB.slope : ℝ) * rValueOf (playerScores recsC7 pB) ∧
        (rValueOf (playerScores recsC7 pB) = 0 ↔ resB.slope = 0)) :=
  ⟨analyze_recsC7_pB, C10_slope_r_sign recsC7 pB resB analyze_recsC7_pB⟩

end Golf
